import Mathlib

/-!
Verification development for the encryption core of this repository
(BFV-family RLWE encryption, RGSW gadget encryption, and the multikey
partial-decryption protocol), together with the BFV parameter
(de)serialization component.

Conventions of the shallow embedding:
* A polynomial in RNS representation is a list of residue rows, one row per
  modulus of the active chain (`PolyV`); machine integers are `Nat` with an
  explicit `% 2 ^ 64` where overflow matters.
* The polynomial-ring arithmetic engine (package `ring`) and the byte-buffer
  helper (package `utils`) are external collaborators of this repository;
  where the embedding needs them they are modelled from the spec, either as
  concrete residue-wise operations (add, negate, scalar multiply) or as
  opaque per-row transforms carried in a `RingModel` record (NTT, Montgomery
  form, basis extension, mod-down), whose concrete content the claims never
  depend on.
* Randomness (Gaussian / ternary / uniform samplers) is passed in as explicit
  sample arguments: a sampler call `ReadLvl(level, p)` becomes "overwrite the
  rows of `p` up to `level` with the given sample".
* Go pointer semantics, where a claim depends on them, are modelled by an
  explicit store (`Store`): polynomials live at addresses (list indices) and
  a Go `*ring.Poly` argument is an address into the store.
-/

/-- One RNS polynomial value: one residue row (length N) per modulus of the
active chain. -/
abbrev PolyV := List (List Nat)

/-- A store of polynomials, modelling the Go heap: a `*ring.Poly` is an index
into this list. -/
abbrev Store := List PolyV

/- ### Small list helpers -/

theorem getD_set_self {α : Type} (l : List α) (n : Nat) (v d : α) :
    (l.set n v).getD n d = if n < l.length then v else d := by
  rw [List.getD_eq_getElem?_getD, List.getElem?_set_self']
  by_cases h : n < l.length
  · simp [h, List.getElem?_eq_getElem h]
  · rw [List.getElem?_eq_none (l := l) (by omega)]
    simp [h]

theorem getD_set_ne {α : Type} (l : List α) (m n : Nat) (h : m ≠ n) (v d : α) :
    (l.set n v).getD m d = l.getD m d := by
  rw [List.getD_eq_getElem?_getD, List.getD_eq_getElem?_getD,
    List.getElem?_set_ne (by omega)]

theorem getD_append_left {α : Type} (l l2 : List α) (a : Nat) (d : α)
    (h : a < l.length) : (l ++ l2).getD a d = l.getD a d := by
  rw [List.getD_eq_getElem?_getD, List.getD_eq_getElem?_getD,
    List.getElem?_append_left h]

theorem getD_append_len {α : Type} (l : List α) (x d : α) :
    (l ++ [x]).getD l.length d = x := by
  rw [List.getD_eq_getElem?_getD, List.getElem?_append_right (Nat.le_refl _)]
  simp

theorem set_append_len {α : Type} (l : List α) (x y : α) :
    (l ++ [x]).set l.length y = l ++ [y] := by
  induction l with
  | nil => rfl
  | cons a l ih => simp [List.set, ih]

/- ### BFV parameter component (source file of package `bfv`) -/

namespace bfv

/-- `MaxN` from the source: the largest supported polynomial modulus degree. -/
def MaxN : Nat := 2 ^ 16

/-- `MaxModuliCount` from the source: the largest supported number of 60-bit
moduli in the RNS representation. -/
def MaxModuliCount : Nat := 34

/-- Source table `logN12Q110`. -/
def logN12Q110 : List Nat :=
  [36028797014376449, 36028797013327873]

/-- Source table `logN13Q219`. -/
def logN13Q219 : List Nat :=
  [36028797014376449, 36028797013327873, 36028797010444289, 18014398506729473]

/-- Source table `logN14Q441`. -/
def logN14Q441 : List Nat :=
  [72057594036879361, 36028797014376449, 36028797013327873, 36028797010444289, 36028797005856769, 
   36028797001138177, 36028796997599233, 36028796996681729]

/-- Source table `logN15Q885`. -/
def logN15Q885 : List Nat :=
  [576460752300015617, 576460752298835969, 576460752298180609, 576460752289923073, 
   576460752289529857, 576460752289005569, 576460752286253057, 576460752284418049, 
   576460752279306241, 576460752273801217, 576460752272228353, 576460752267509761, 
   576460752265543681, 576460752260694017, 576460752259645441]

/-- Source table `Pi60`. -/
def Pi60 : List Nat :=
  [576460752308273153, 576460752315482113, 576460752319021057, 576460752319414273, 
   576460752321642497, 576460752325705729, 576460752328327169, 576460752329113601, 
   576460752329506817, 576460752329900033, 576460752331210753, 576460752337502209, 
   576460752340123649, 576460752342876161, 576460752347201537, 576460752347332609, 
   576460752352837633, 576460752354017281, 576460752355065857, 576460752355459073, 
   576460752358604801, 576460752364240897, 576460752368435201, 576460752371187713, 
   576460752373547009, 576460752374333441, 576460752376692737, 576460752378003457, 
   576460752378396673, 576460752380755969, 576460752381411329, 576460752386129921, 
   576460752395173889, 576460752395960321, 576460752396091393, 576460752396484609, 
   576460752399106049, 576460752405135361, 576460752405921793, 576460752409722881, 
   576460752410116097, 576460752411033601, 576460752412082177, 576460752416145409, 
   576460752416931841, 576460752421257217, 576460752427548673, 576460752429514753, 
   576460752435281921, 576460752437248001, 576460752438558721, 576460752441966593, 
   576460752449044481, 576460752451141633, 576460752451534849, 576460752462938113, 
   576460752465952769, 576460752468705281, 576460752469491713, 576460752472375297, 
   576460752473948161, 576460752475389953, 576460752480894977, 576460752483254273, 
   576460752484827137, 576460752486793217, 576460752486924289, 576460752492691457, 
   576460752498589697, 576460752498720769, 576460752499507201, 576460752504225793, 
   576460752505405441, 576460752507240449, 576460752507764737, 576460752509206529, 
   576460752510124033, 576460752510779393, 576460752511959041, 576460752514449409, 
   576460752516284417, 576460752519168001, 576460752520347649, 576460752520609793, 
   576460752522969089, 576460752523100161, 576460752524279809, 576460752525852673, 
   576460752526245889, 576460752526508033, 576460752532013057, 576460752545120257, 
   576460752550100993, 576460752551804929, 576460752567402497, 576460752568975361, 
   576460752573431809, 576460752580902913, 576460752585490433, 576460752586407937]

/-- `Parameters` from the source. `Sigma` is a `float64` in the source; it is
modelled by an exact rational. On every value the claims exercise, the
`float64` operations performed on `Sigma` (multiply by `2 ^ 32`, truncate to
`uint64`, divide, round) are exact enough that the rational model and the
`float64` computation agree; NaN values are outside the model. -/
structure Parameters where
  N : Nat
  T : Nat
  Qi : List Nat
  Pi : List Nat
  Sigma : Rat
deriving DecidableEq, Repr

/-- `DefaultParams` from the source (the commented-out fifth entry is absent
there as well). -/
def DefaultParams : List Parameters :=
  [{ N := 4096, T := 65537, Qi := logN12Q110, Pi := Pi60.drop (Pi60.length - 3), Sigma := 3.19 },
   { N := 8192, T := 65537, Qi := logN13Q219, Pi := Pi60.drop (Pi60.length - 5), Sigma := 3.19 },
   { N := 16384, T := 65537, Qi := logN14Q441, Pi := Pi60.drop (Pi60.length - 9), Sigma := 3.19 },
   { N := 32768, T := 65537, Qi := logN15Q885, Pi := Pi60.drop (Pi60.length - 17), Sigma := 3.19 }]

/-- `Parameters.Equals` from the source. The source first short-circuits on
pointer equality (`p == other`), which in this value-level model is subsumed
by field-wise comparison (two equal pointers have equal fields); it then
compares `N`, `Qi`, `Pi` (element-wise, in order, via `EqualSlice`) and
`Sigma`. `T` is not compared. -/
def Parameters.Equals (p other : Parameters) : Bool :=
  decide (p.N = other.N) && decide (p.Qi = other.Qi) && decide (p.Pi = other.Pi) &&
    decide (p.Sigma = other.Sigma)

/-- Modelled from the spec: the byte-buffer collaborator (package `utils`,
not part of this repository) writes 64-bit fields as 8 bytes; the byte order
is fixed here as big-endian, and only has to match between the write and read
directions below. -/
def u64bytes (n : Nat) : List Nat :=
  [n / 2 ^ 56 % 256, n / 2 ^ 48 % 256, n / 2 ^ 40 % 256, n / 2 ^ 32 % 256,
   n / 2 ^ 24 % 256, n / 2 ^ 16 % 256, n / 2 ^ 8 % 256, n % 256]

/-- Modelled from the spec: `ReadUint64` of the byte-buffer collaborator at a
given offset (bytes past the end read as 0; the source code never does this
on the inputs the claims exercise). -/
def readUint64At (data : List Nat) (off : Nat) : Nat :=
  data.getD off 0 * 2 ^ 56 + data.getD (off + 1) 0 * 2 ^ 48 +
    data.getD (off + 2) 0 * 2 ^ 40 + data.getD (off + 3) 0 * 2 ^ 32 +
    data.getD (off + 4) 0 * 2 ^ 24 + data.getD (off + 5) 0 * 2 ^ 16 +
    data.getD (off + 6) 0 * 2 ^ 8 + data.getD (off + 7) 0

/-- Modelled from the spec: `ReadUint64Slice` of the byte-buffer collaborator:
`count` consecutive 64-bit reads starting at `off`. -/
def readUint64SliceAt (data : List Nat) (off count : Nat) : List Nat :=
  (List.range count).map (fun t => readUint64At data (off + 8 * t))

/-- `bits.Len64` of the Go standard library: the number of bits required to
represent `n` (0 for `n = 0`), here for `n < 2 ^ 64`: the number of exponents
`k ≤ 64` with `2 ^ k ≤ n`. (`Nat.log2` is avoided only because its
well-founded recursion does not reduce inside the kernel.) -/
def bitsLen64 (n : Nat) : Nat := ((List.range 65).filter (fun k => 2 ^ k ≤ n)).length

/-- `math.Round` of the Go standard library: round half away from zero. All
values this file rounds are nonnegative, where that equals the floor of
`x + 1/2`. -/
def goRound (x : Rat) : Rat := ((⌊x + 1 / 2⌋ : Int) : Rat)

/-- Rounding to two decimal places, as performed on `Sigma` by
`UnMarshalBinary`. -/
def round2 (x : Rat) : Rat := goRound (x * 100) / 100

/-- `Parameters.MarshalBinary` from the source. The error result is always
`none` (the source returns a nil error on both paths); the `uint64` cast of
`p.Sigma * (1 << 32)` truncates toward zero, modelled by `Rat.floor` (the
value is nonnegative on every input the claims exercise). -/
def Parameters.MarshalBinary (p : Parameters) : List Nat × Option String :=
  if p.N = 0 then ([], none)
  else
    (([(bitsLen64 p.N - 1) % 256, p.Qi.length % 256, p.Pi.length % 256] ++
        u64bytes (p.T % 2 ^ 64) ++
        u64bytes (⌊p.Sigma * 2 ^ 32⌋.toNat % 2 ^ 64) ++
        (p.Qi.map (fun q => u64bytes (q % 2 ^ 64))).flatten ++
        (p.Pi.map (fun q => u64bytes (q % 2 ^ 64))).flatten),
      none)

/-- `Parameters.UnMarshalBinary` from the source, as a function from the
receiver value and the input bytes to the final receiver value and the
returned error. The source mutates the receiver field by field, so the
receiver value accompanying an error report is part of the behaviour under
test: note that `p.N` is assigned before the `MaxN` and moduli-count checks.
`1 << b` on `uint64` is `2 ^ b % 2 ^ 64` (zero for shifts of 64 or more). -/
def Parameters.UnMarshalBinary (p : Parameters) (data : List Nat) :
    Parameters × Option String :=
  if data.length < 3 then (p, some "invalid parameters encoding")
  else if MaxN < 2 ^ data.getD 0 0 % 2 ^ 64 then
    ({ p with N := 2 ^ data.getD 0 0 % 2 ^ 64 }, some "polynomial degree is too large")
  else if MaxModuliCount < data.getD 1 0 then
    ({ p with N := 2 ^ data.getD 0 0 % 2 ^ 64 }, some "len(Qi) is larger than 34")
  else if MaxModuliCount < data.getD 2 0 then
    ({ p with N := 2 ^ data.getD 0 0 % 2 ^ 64 }, some "len(Pi) is larger than 34")
  else
    ({ N := 2 ^ data.getD 0 0 % 2 ^ 64,
       T := readUint64At data 3,
       Qi := readUint64SliceAt data 19 (data.getD 1 0),
       Pi := readUint64SliceAt data (19 + 8 * data.getD 1 0) (data.getD 2 0),
       Sigma := round2 ((readUint64At data 11 : Rat) / 2 ^ 32) },
      none)

/-- The result of `UnMarshalBinary` on the success path, which is independent
of the receiver value: every field is overwritten. -/
theorem Parameters.unmarshal_success (p : Parameters) (data : List Nat)
    (h1 : ¬ data.length < 3) (h2 : ¬ MaxN < 2 ^ data.getD 0 0 % 2 ^ 64)
    (h3 : ¬ MaxModuliCount < data.getD 1 0) (h4 : ¬ MaxModuliCount < data.getD 2 0) :
    p.UnMarshalBinary data =
      ({ N := 2 ^ data.getD 0 0 % 2 ^ 64,
         T := readUint64At data 3,
         Qi := readUint64SliceAt data 19 (data.getD 1 0),
         Pi := readUint64SliceAt data (19 + 8 * data.getD 1 0) (data.getD 2 0),
         Sigma := round2 ((readUint64At data 11 : Rat) / 2 ^ 32) },
        none) := by
  simp only [Parameters.UnMarshalBinary, if_neg h1, if_neg h2, if_neg h3, if_neg h4]

end bfv

/- ### Claims about the BFV parameter component (C3, C6, C7) -/

set_option maxRecDepth 8192

/-- C6: `Equals(p, q)` returns true exactly when `p` and `q` have equal ring
degree `N`, element-wise equal `Q` sequences in the same order, element-wise
equal `P` sequences in the same order, and equal `σ`; the plaintext modulus
`T` plays no role, so two parameter sets differing only in `T` compare
equal. -/
theorem c6_equals_ignores_T (p q : bfv.Parameters) :
    (p.Equals q = true ↔ (p.N = q.N ∧ p.Qi = q.Qi ∧ p.Pi = q.Pi ∧ p.Sigma = q.Sigma)) ∧
    (∀ t : Nat, p.Equals { p with T := t } = true) := by
  constructor
  · simp [bfv.Parameters.Equals, and_assoc]
  · intro t
    simp [bfv.Parameters.Equals]

/-- C3 counterexample: decoding `[17, 0, 0]` into a target with `N = 4096`
reports the oversized-degree error, yet the target's `N` field has already
been overwritten with `2 ^ 17 = 131072`: the claim that no field is mutated
before the error is returned is false. -/
theorem c3_counterexample :
    (bfv.Parameters.UnMarshalBinary ⟨4096, 65537, [], [], 0⟩ [17, 0, 0]).2
        = some "polynomial degree is too large" ∧
      (bfv.Parameters.UnMarshalBinary ⟨4096, 65537, [], [], 0⟩ [17, 0, 0]).1.N = 131072 ∧
      (bfv.Parameters.UnMarshalBinary ⟨4096, 65537, [], [], 0⟩ [17, 0, 0]).1
        ≠ ⟨4096, 65537, [], [], 0⟩ := by
  decide

/-- C3 amended: on every error path of `UnMarshalBinary` the fields `T`, `Qi`,
`Pi` and `Sigma` of the target are unchanged, and on the short-buffer error
path (fewer than 3 bytes) the whole target is unchanged; but on the
oversized-degree and oversized-moduli-count error paths the field `N` has
already been overwritten with the decoded degree `2 ^ data[0] % 2 ^ 64`
before the error is returned. -/
theorem c3_error_paths_mutate_only_N (p : bfv.Parameters) (data : List Nat)
    (h : (p.UnMarshalBinary data).2 ≠ none) :
    ((p.UnMarshalBinary data).1.T = p.T ∧ (p.UnMarshalBinary data).1.Qi = p.Qi ∧
      (p.UnMarshalBinary data).1.Pi = p.Pi ∧ (p.UnMarshalBinary data).1.Sigma = p.Sigma) ∧
    (data.length < 3 → (p.UnMarshalBinary data).1 = p) ∧
    (¬ data.length < 3 → (p.UnMarshalBinary data).1.N = 2 ^ data.getD 0 0 % 2 ^ 64) := by
  unfold bfv.Parameters.UnMarshalBinary at *
  split_ifs at * <;> simp_all

/-- Witness for `c3_error_paths_mutate_only_N` at the concrete input of
`c3_counterexample`. -/
theorem c3_error_paths_mutate_only_N_witness :
    ((bfv.Parameters.UnMarshalBinary ⟨4096, 65537, [], [], 0⟩ [17, 0, 0]).2 ≠ none) ∧
      (bfv.Parameters.UnMarshalBinary ⟨4096, 65537, [], [], 0⟩ [17, 0, 0]).1.T = 65537 := by
  refine ⟨by decide, ?_⟩
  exact (c3_error_paths_mutate_only_N ⟨4096, 65537, [], [], 0⟩ [17, 0, 0] (by decide)).1.1

/-- Evaluation of the serialized `σ` field for `σ = 3.19` (the value shared by
every default parameter set). -/
theorem sigmaFloorVal : (⌊(3.19 : Rat) * 2 ^ 32⌋.toNat % 2 ^ 64 : Nat) = 13700945674 := by
  have h : ⌊(3.19 : Rat) * 2 ^ 32⌋ = 13700945674 := by
    rw [Int.floor_eq_iff]
    norm_num
  rw [h]
  decide

/-- Decoding the serialized `σ` field reproduces `σ = 3.19` after rounding to
two decimal places. -/
theorem sigmaRound2Val :
    bfv.round2 (((13700945674 : Nat) : Rat) / 2 ^ 32) = bfv.round2 (3.19 : Rat) := by
  have h1 : ⌊((13700945674 : Nat) : Rat) / 2 ^ 32 * 100 + 1 / 2⌋ = 319 := by
    rw [Int.floor_eq_iff]
    norm_num
  have h2 : ⌊(3.19 : Rat) * 100 + 1 / 2⌋ = 319 := by
    rw [Int.floor_eq_iff]
    norm_num
  unfold bfv.round2 bfv.goRound
  rw [h1, h2]

/-- C7: for every entry of the default parameter table, encoding with
`MarshalBinary` and then decoding the produced bytes with `UnMarshalBinary`
(into an arbitrary target) succeeds and reconstructs a value with the same
`N`, `T`, `Qi` sequence and `Pi` sequence, and with `σ` equal to the original
`σ` rounded to two decimal places. -/
theorem c7_default_params_roundtrip (p0 p : bfv.Parameters)
    (hp : p ∈ bfv.DefaultParams) :
    (p0.UnMarshalBinary p.MarshalBinary.1).2 = none ∧
      (p0.UnMarshalBinary p.MarshalBinary.1).1.N = p.N ∧
      (p0.UnMarshalBinary p.MarshalBinary.1).1.T = p.T ∧
      (p0.UnMarshalBinary p.MarshalBinary.1).1.Qi = p.Qi ∧
      (p0.UnMarshalBinary p.MarshalBinary.1).1.Pi = p.Pi ∧
      (p0.UnMarshalBinary p.MarshalBinary.1).1.Sigma = bfv.round2 p.Sigma := by
  fin_cases hp <;>
  · rw [bfv.Parameters.unmarshal_success _ _ (by decide) (by decide) (by decide) (by decide)]
    refine ⟨rfl, by decide, by decide, by decide, by decide, ?_⟩
    rw [show bfv.readUint64At _ 11 = 13700945674 from by
      simp only [bfv.Parameters.MarshalBinary]
      rw [if_neg (by decide), sigmaFloorVal]
      decide]
    exact sigmaRound2Val

/-- Witness for `c7_default_params_roundtrip` at the first default parameter
set. -/
theorem c7_default_params_roundtrip_witness :
    ({ N := 4096, T := 65537, Qi := bfv.logN12Q110,
       Pi := bfv.Pi60.drop (bfv.Pi60.length - 3), Sigma := 3.19 } ∈ bfv.DefaultParams) ∧
      ((⟨0, 0, [], [], 0⟩ : bfv.Parameters).UnMarshalBinary
          ({ N := 4096, T := 65537, Qi := bfv.logN12Q110,
             Pi := bfv.Pi60.drop (bfv.Pi60.length - 3),
             Sigma := 3.19 } : bfv.Parameters).MarshalBinary.1).1.N = 4096 :=
  ⟨List.mem_cons_self _ _,
    (c7_default_params_roundtrip ⟨0, 0, [], [], 0⟩ _ (List.mem_cons_self _ _)).2.1⟩

/- ### RLWE encryptor component (source file of package `rlwe`) -/

namespace rlwe

/-- `ring.Poly`: the residue rows (`Coeffs`) plus the NTT-domain tag
(`IsNTT`). -/
structure Poly where
  Coeffs : PolyV
  IsNTT : Bool
deriving DecidableEq, Repr, Inhabited

/-- `Poly.Level()`: the index of the highest active modulus,
`len(Coeffs) - 1`. -/
def Poly.Level (p : Poly) : Nat := p.Coeffs.length - 1

/-- `rlwe.Plaintext`: a single polynomial (field `Value` in the source). -/
structure Plaintext where
  Value : Poly
deriving DecidableEq, Repr, Inhabited

/-- `Plaintext.Level()`. -/
def Plaintext.Level (p : Plaintext) : Nat := p.Value.Level

/-- `rlwe.Ciphertext`: the pair `Value[0], Value[1]` of polynomials. -/
structure Ciphertext where
  c0 : Poly
  c1 : Poly
deriving DecidableEq, Repr, Inhabited

/-- Modelled from the spec: `Ciphertext.Level()` reads the level of the first
component (`len(Value[0].Coeffs) - 1`). -/
def Ciphertext.Level (ct : Ciphertext) : Nat := ct.c0.Level

/-- A modulus chain together with the per-row transforms of the ring
arithmetic collaborator. Modelled from the spec: NTT, inverse NTT, Montgomery
form, Montgomery multiplication, RNS basis extension and mod-down are external
primitives specified only through their contract, so the model carries them as
opaque per-row-index functions; the claims never depend on their content,
only on which rows they are applied to. -/
structure RingModel where
  Modulus : List Nat
  nttRow : Nat → List Nat → List Nat
  invNttRow : Nat → List Nat → List Nat
  mformRow : Nat → List Nat → List Nat
  mulMontRow : Nat → List Nat → List Nat → List Nat
  modDownRow : Nat → PolyV → PolyV → List Nat
  extendRow : Nat → PolyV → List Nat

/-- The common shape of every levelled ring operation: rows `0 .. level` of
`out` are overwritten (the new row may depend on the old one), rows above
`level` are untouched. A negative `level` (the `-1` sentinel for an absent
auxiliary chain) touches nothing. -/
def writeRows (level : Int) (f : Nat → List Nat → List Nat) (out : PolyV) : PolyV :=
  out.mapIdx fun i row => if (i : Int) ≤ level then f i row else row

/-- Modelled from the spec: residue-wise modular addition of two rows. -/
def addRow (q : Nat) (x y : List Nat) : List Nat :=
  List.zipWith (fun a b => (a + b) % q) x y

/-- Modelled from the spec: residue-wise modular negation of a row. -/
def negRow (q : Nat) (x : List Nat) : List Nat :=
  x.map fun a => (q - a % q) % q

/-- `ring.Ring.AddLvl(level, a, b, out)`. -/
def RingModel.AddLvl (R : RingModel) (level : Int) (a b out : PolyV) : PolyV :=
  writeRows level (fun i _ => addRow (R.Modulus.getD i 0) (a.getD i []) (b.getD i [])) out

/-- `ring.Ring.NegLvl(level, a, out)`. -/
def RingModel.NegLvl (R : RingModel) (level : Int) (a out : PolyV) : PolyV :=
  writeRows level (fun i _ => negRow (R.Modulus.getD i 0) (a.getD i [])) out

/-- `ring.Ring.NTTLvl(level, a, out)` (the raw transform does not touch the
`IsNTT` tag, which the encryptor tracks itself). -/
def RingModel.NTTLvl (R : RingModel) (level : Int) (a out : PolyV) : PolyV :=
  writeRows level (fun i _ => R.nttRow i (a.getD i [])) out

/-- `ring.Ring.InvNTTLvl(level, a, out)`. -/
def RingModel.InvNTTLvl (R : RingModel) (level : Int) (a out : PolyV) : PolyV :=
  writeRows level (fun i _ => R.invNttRow i (a.getD i [])) out

/-- `ring.Ring.MFormLvl(level, a, out)`. -/
def RingModel.MFormLvl (R : RingModel) (level : Int) (a out : PolyV) : PolyV :=
  writeRows level (fun i _ => R.mformRow i (a.getD i [])) out

/-- `ring.Ring.MulCoeffsMontgomeryLvl(level, a, b, out)`. -/
def RingModel.MulCoeffsMontgomeryLvl (R : RingModel) (level : Int) (a b out : PolyV) : PolyV :=
  writeRows level (fun i _ => R.mulMontRow i (a.getD i []) (b.getD i [])) out

/-- Modelled from the spec: `a - b·sk` on one row (Montgomery
multiply-and-subtract); the subtraction is the modular one. -/
def RingModel.mulMontSubRow (R : RingModel) (i : Nat) (b sk a : List Nat) : List Nat :=
  List.zipWith (fun x y => (x + R.Modulus.getD i 0 - y % R.Modulus.getD i 0) % R.Modulus.getD i 0)
    a (R.mulMontRow i b sk)

/-- `ring.Ring.MulCoeffsMontgomeryAndSubLvl(level, b, sk, a)`. -/
def RingModel.MulCoeffsMontgomeryAndSubLvl (R : RingModel) (level : Int) (b sk a : PolyV) : PolyV :=
  writeRows level (fun i old => R.mulMontSubRow i (b.getD i []) (sk.getD i []) old) a

/-- Modelled from the spec: row-wise multiplication by a (big-integer) scalar,
reduced per modulus. -/
def RingModel.mulScalarRow (R : RingModel) (i : Nat) (s : Nat) (x : List Nat) : List Nat :=
  x.map fun a => a * (s % R.Modulus.getD i 0) % R.Modulus.getD i 0

/-- `ring.Ring.MulScalarBigintLvl(level, a, s, out)`. -/
def RingModel.MulScalarBigintLvl (R : RingModel) (level : Int) (a : PolyV) (s : Nat)
    (out : PolyV) : PolyV :=
  writeRows level (fun i _ => R.mulScalarRow i s (a.getD i [])) out

/-- `ring.Ring.MulScalar(a, s, out)`: scalar multiplication over the full
modulus chain of the ring. -/
def RingModel.MulScalar (R : RingModel) (a : PolyV) (s : Nat) (out : PolyV) : PolyV :=
  writeRows ((R.Modulus.length : Int) - 1) (fun i _ => R.mulScalarRow i s (a.getD i [])) out

/-- `ring.CopyLvl(level, a, out)`. -/
def copyLvl (level : Int) (a out : PolyV) : PolyV :=
  writeRows level (fun i _ => a.getD i []) out

/-- A sampler call `ReadLvl(level, out)`: overwrite rows `0 .. level` of `out`
with the rows of the freshly drawn sample `smp` (the sample is an explicit
argument of the model). -/
def readLvl (level : Int) (smp : PolyV) (out : PolyV) : PolyV :=
  writeRows level (fun i _ => smp.getD i []) out

/-- A sampler call `ReadAndAddLvl(level, out)`: add a freshly drawn sample
into rows `0 .. level` of `out`. -/
def readAndAddLvl (qs : List Nat) (level : Int) (smp : PolyV) (out : PolyV) : PolyV :=
  writeRows level (fun i old => addRow (qs.getD i 0) old (smp.getD i [])) out

/-- `ExtendBasisSmallNormAndCenter(src, levelP, nil, out)`: fill rows
`0 .. levelP` of the auxiliary-chain polynomial `out` from the Q-chain
polynomial `src`. -/
def RingModel.extendBasis (RP : RingModel) (levelP : Int) (src out : PolyV) : PolyV :=
  writeRows levelP (fun i _ => RP.extendRow i src) out

/-- `BasisExtender.ModDownQPtoQ(levelQ, levelP, aQ, aP, out)`; only the Q-side
output matters (rows `0 .. levelQ` of `out` are rewritten from the redundant
`(aQ, aP)` representation). -/
def RingModel.ModDownQPtoQ (R : RingModel) (levelQ : Int) (aQ aP out : PolyV) : PolyV :=
  writeRows levelQ (fun i _ => R.modDownRow i aQ aP) out

end rlwe

namespace rlwe

/-- `skEncryptor.encrypt` (source lines 335-387). `sk` is the secret key's
Q-side polynomial, `eSmp` the Gaussian sample drawn by the single
`gaussianSampler` call of the executed branch, `pool` the scratch buffer
`enc.poolQ[0]`. Note that the `ReadAndAddLvl` call of the coefficient-domain
branch passes `ciphertext.Level()` (the length of `Value[0].Coeffs` at that
point, still the entry length) and not `levelQ`. -/
def skEncrypt (R : RingModel) (sk eSmp pool : PolyV) (pt : Plaintext) (ct : Ciphertext) :
    Ciphertext :=
  let levelQ : Int := (min pt.Level ct.Level : Nat)
  let ciphertextNTT := ct.c0.IsNTT
  let c0 := R.MulCoeffsMontgomeryLvl levelQ ct.c1.Coeffs sk ct.c0.Coeffs
  let c0 := R.NegLvl levelQ c0 c0
  if ciphertextNTT then
    let pool := readLvl levelQ eSmp pool
    let c0 :=
      if pt.Value.IsNTT then
        let pool := R.NTTLvl levelQ pool pool
        let c0 := R.AddLvl levelQ c0 pool c0
        R.AddLvl levelQ c0 pt.Value.Coeffs c0
      else
        let pool := R.AddLvl levelQ pool pt.Value.Coeffs pool
        let pool := R.NTTLvl levelQ pool pool
        R.AddLvl levelQ c0 pool c0
    { c0 := { Coeffs := c0.take (min pt.Level ct.Level + 1), IsNTT := true },
      c1 := { Coeffs := ct.c1.Coeffs.take (min pt.Level ct.Level + 1), IsNTT := true } }
  else
    let c0 :=
      if pt.Value.IsNTT then
        let c0 := R.AddLvl levelQ c0 pt.Value.Coeffs c0
        R.InvNTTLvl levelQ c0 c0
      else
        let c0 := R.InvNTTLvl levelQ c0 c0
        R.AddLvl levelQ c0 pt.Value.Coeffs c0
    let c0 := readAndAddLvl R.Modulus ((c0.length : Int) - 1) eSmp c0
    let c1 := R.InvNTTLvl levelQ ct.c1.Coeffs ct.c1.Coeffs
    { c0 := { Coeffs := c0.take (min pt.Level ct.Level + 1), IsNTT := false },
      c1 := { Coeffs := c1.take (min pt.Level ct.Level + 1), IsNTT := false } }

/-- `pkEncryptor.encryptNoP` (source lines 272-333). `pk0`, `pk1` are the
Q-side polynomials of the public key, `uSmp` the ternary sample, `e0Smp` and
`e1Smp` the Gaussian samples for the two error terms, `pool` the scratch
buffer `enc.poolQ[0]`. As in `skEncrypt`, the two `ReadAndAddLvl` calls of
the coefficient-domain branch pass `ciphertext.Level()` (the entry length of
`Value[0].Coeffs`, minus one). On exit `Value[0].IsNTT` was never assigned,
so both components carry the entry tag of `Value[0]`. -/
def pkEncryptNoP (R : RingModel) (pk0 pk1 : PolyV) (uSmp e0Smp e1Smp pool : PolyV)
    (pt : Plaintext) (ct : Ciphertext) : Ciphertext :=
  let levelQ : Int := (min pt.Level ct.Level : Nat)
  let ciphertextNTT := ct.c0.IsNTT
  let pool := readLvl levelQ uSmp pool
  let pool := R.NTTLvl levelQ pool pool
  let pool := R.MFormLvl levelQ pool pool
  let c0 := R.MulCoeffsMontgomeryLvl levelQ pool pk0 ct.c0.Coeffs
  let c1 := R.MulCoeffsMontgomeryLvl levelQ pool pk1 ct.c1.Coeffs
  let r :=
    if ciphertextNTT then
      let pool := readLvl levelQ e1Smp pool
      let pool := R.NTTLvl levelQ pool pool
      let c1 := R.AddLvl levelQ c1 pool c1
      let pool := readLvl levelQ e0Smp pool
      let c0 :=
        if !pt.Value.IsNTT then
          let pool := R.AddLvl levelQ pool pt.Value.Coeffs pool
          let pool := R.NTTLvl levelQ pool pool
          R.AddLvl levelQ c0 pool c0
        else
          let pool := R.NTTLvl levelQ pool pool
          let c0 := R.AddLvl levelQ c0 pool c0
          R.AddLvl levelQ c0 pt.Value.Coeffs c0
      (c0, c1)
    else
      let c0 := R.InvNTTLvl levelQ c0 c0
      let c1 := R.InvNTTLvl levelQ c1 c1
      let c0 := readAndAddLvl R.Modulus ((c0.length : Int) - 1) e0Smp c0
      let c1 := readAndAddLvl R.Modulus ((c0.length : Int) - 1) e1Smp c1
      let c0 :=
        if !pt.Value.IsNTT then
          R.AddLvl levelQ c0 pt.Value.Coeffs c0
        else
          let pool := R.InvNTTLvl levelQ pt.Value.Coeffs pool
          R.AddLvl levelQ c0 pool c0
      (c0, c1)
  { c0 := { Coeffs := r.1.take (min pt.Level ct.Level + 1), IsNTT := ct.c0.IsNTT },
    c1 := { Coeffs := r.2.take (min pt.Level ct.Level + 1), IsNTT := ct.c0.IsNTT } }

/-- `pkEncryptor.encrypt` (source lines 189-270), the public-key path over the
extended ring Q∪P. `RP` is the auxiliary-chain ring, `pk0Q/pk0P/pk1Q/pk1P`
the two extended public-key polynomials, `ternSmp` the ternary mask sample,
`e0Smp`/`e1Smp` the two Gaussian samples, and `poolQ0/poolP0/poolP1/poolP2`
the scratch buffers. `u` and `e` share the buffer pair
`(poolQ0, poolP2)` exactly as in the source; `levelP` is fixed to 0 there.
On exit `Value[0].IsNTT` was never assigned, so line 267 makes both
components carry the entry tag of `Value[0]`. -/
def pkEncryptP (R RP : RingModel) (pk0Q pk0P pk1Q pk1P : PolyV)
    (ternSmp e0Smp e1Smp : PolyV) (poolQ0 poolP0 poolP1 poolP2 : PolyV)
    (pt : Plaintext) (ct : Ciphertext) : Ciphertext :=
  let levelQ : Int := (min pt.Level ct.Level : Nat)
  let levelP : Int := 0
  let ciphertextNTT := ct.c0.IsNTT
  let uQ := readLvl levelQ ternSmp poolQ0
  let uP := RP.extendBasis levelP uQ poolP2
  let uQ := R.NTTLvl levelQ uQ uQ
  let uP := RP.NTTLvl levelP uP uP
  let uQ := R.MFormLvl levelQ uQ uQ
  let uP := RP.MFormLvl levelP uP uP
  let c0Q := R.MulCoeffsMontgomeryLvl levelQ uQ pk0Q ct.c0.Coeffs
  let c0P := RP.MulCoeffsMontgomeryLvl levelP uP pk0P poolP0
  let c1Q := R.MulCoeffsMontgomeryLvl levelQ uQ pk1Q ct.c1.Coeffs
  let c1P := RP.MulCoeffsMontgomeryLvl levelP uP pk1P poolP1
  let c0Q := R.InvNTTLvl levelQ c0Q c0Q
  let c0P := RP.InvNTTLvl levelP c0P c0P
  let c1Q := R.InvNTTLvl levelQ c1Q c1Q
  let c1P := RP.InvNTTLvl levelP c1P c1P
  let eQ := readLvl levelQ e0Smp uQ
  let eP := RP.extendBasis levelP eQ uP
  let c0Q := R.AddLvl levelQ c0Q eQ c0Q
  let c0P := RP.AddLvl levelP c0P eP c0P
  let eQ := readLvl levelQ e1Smp eQ
  let eP := RP.extendBasis levelP eQ eP
  let c1Q := R.AddLvl levelQ c1Q eQ c1Q
  let c1P := RP.AddLvl levelP c1P eP c1P
  let c0Q := R.ModDownQPtoQ levelQ c0Q c0P c0Q
  let c1Q := R.ModDownQPtoQ levelQ c1Q c1P c1Q
  let r :=
    if ciphertextNTT then
      let c0Q :=
        if !pt.Value.IsNTT then R.AddLvl levelQ c0Q pt.Value.Coeffs c0Q else c0Q
      let c0Q := R.NTTLvl levelQ c0Q c0Q
      let c1Q := R.NTTLvl levelQ c1Q c1Q
      let c0Q :=
        if pt.Value.IsNTT then R.AddLvl levelQ c0Q pt.Value.Coeffs c0Q else c0Q
      (c0Q, c1Q)
    else
      if !pt.Value.IsNTT then
        (R.AddLvl levelQ c0Q pt.Value.Coeffs c0Q, c1Q)
      else
        let pool := R.InvNTTLvl levelQ pt.Value.Coeffs eQ
        (R.AddLvl levelQ c0Q pool c0Q, c1Q)
  { c0 := { Coeffs := r.1.take (min pt.Level ct.Level + 1), IsNTT := ct.c0.IsNTT },
    c1 := { Coeffs := r.2.take (min pt.Level ct.Level + 1), IsNTT := ct.c0.IsNTT } }

/-- `skEncryptor.Encrypt` (source lines 135-140): fill `ct.Value[1]` with a
fresh uniform sample at the working level, then run `encrypt`. -/
def skEncryptorEncrypt (R : RingModel) (sk : PolyV) (uniSmp eSmp pool : PolyV)
    (pt : Plaintext) (ct : Ciphertext) : Ciphertext :=
  skEncrypt R sk eSmp pool pt
    { ct with c1 := { ct.c1 with
        Coeffs := readLvl ((min pt.Level ct.Level : Nat) : Int) uniSmp ct.c1.Coeffs } }

/-- `skEncryptor.EncryptFromCRP` (source lines 144-148): copy the
caller-supplied common reference polynomial into `ct.Value[1]`
(`ring.CopyValues`), then run `encrypt`. -/
def skEncryptFromCRP (R : RingModel) (sk : PolyV) (eSmp pool : PolyV) (crp : PolyV)
    (pt : Plaintext) (ct : Ciphertext) : Ciphertext :=
  skEncrypt R sk eSmp pool pt { ct with c1 := { ct.c1 with Coeffs := crp } }

/-- `pkEncryptor.Encrypt` (source lines 119-127): fill `ct.Value[1]` with a
fresh uniform sample at the working level, then run `encrypt` when a basis
extender (auxiliary modulus P) is configured, `encryptNoP` otherwise. -/
def pkEncryptorEncrypt (hasP : Bool) (R RP : RingModel) (pk0Q pk0P pk1Q pk1P : PolyV)
    (uniSmp uSmp e0Smp e1Smp : PolyV) (poolQ0 poolP0 poolP1 poolP2 : PolyV)
    (pt : Plaintext) (ct : Ciphertext) : Ciphertext :=
  let ct1 : Ciphertext :=
    { ct with c1 := { ct.c1 with
        Coeffs := readLvl ((min pt.Level ct.Level : Nat) : Int) uniSmp ct.c1.Coeffs } }
  if hasP then pkEncryptP R RP pk0Q pk0P pk1Q pk1P uSmp e0Smp e1Smp poolQ0 poolP0 poolP1 poolP2 pt ct1
  else pkEncryptNoP R pk0Q pk1Q uSmp e0Smp e1Smp poolQ0 pt ct1

end rlwe

namespace rlwe

/-- The kinds of ring-engine and sampler calls an encryption path makes, used
to record at which level each call is made. -/
inductive OpKind where
  | ternaryRead
  | gaussRead
  | gaussReadAndAdd
  | ntt
  | invntt
  | mform
  | mulMont
  | neg
  | add
deriving DecidableEq, Repr

/-- The `(operation, level argument)` pairs of the ring/sampler calls made by
`skEncryptor.encrypt` (source lines 335-387), in source order, as a function
of the entry levels and domain tags. `min ptLevel ctLevel` is the `levelQ`
of line 339; the `gaussReadAndAdd` entry of the coefficient-domain branch
records the `ciphertext.Level()` argument of line 376, which at that point
(before the final truncation) is still the entry level `ctLevel`. -/
def skEncryptTrace (ptLevel ctLevel : Nat) (ptNTT ctNTT : Bool) : List (OpKind × Nat) :=
  [(.mulMont, min ptLevel ctLevel), (.neg, min ptLevel ctLevel)] ++
    (if ctNTT then
      [(.gaussRead, min ptLevel ctLevel)] ++
        (if ptNTT then
          [(.ntt, min ptLevel ctLevel), (.add, min ptLevel ctLevel),
           (.add, min ptLevel ctLevel)]
        else
          [(.add, min ptLevel ctLevel), (.ntt, min ptLevel ctLevel),
           (.add, min ptLevel ctLevel)])
    else
      (if ptNTT then
        [(.add, min ptLevel ctLevel), (.invntt, min ptLevel ctLevel)]
      else
        [(.invntt, min ptLevel ctLevel), (.add, min ptLevel ctLevel)]) ++
        [(.gaussReadAndAdd, ctLevel), (.invntt, min ptLevel ctLevel)])

/-- The `(operation, level argument)` pairs of the ring/sampler calls made by
`pkEncryptor.encryptNoP` (source lines 272-333), in source order. The two
`gaussReadAndAdd` entries of the coefficient-domain branch record the
`ciphertext.Level()` arguments of lines 316 and 319, still the entry level
`ctLevel` at that point. -/
def pkEncryptNoPTrace (ptLevel ctLevel : Nat) (ptNTT ctNTT : Bool) : List (OpKind × Nat) :=
  [(.ternaryRead, min ptLevel ctLevel), (.ntt, min ptLevel ctLevel),
   (.mform, min ptLevel ctLevel), (.mulMont, min ptLevel ctLevel),
   (.mulMont, min ptLevel ctLevel)] ++
    (if ctNTT then
      [(.gaussRead, min ptLevel ctLevel), (.ntt, min ptLevel ctLevel),
       (.add, min ptLevel ctLevel), (.gaussRead, min ptLevel ctLevel)] ++
        (if !ptNTT then
          [(.add, min ptLevel ctLevel), (.ntt, min ptLevel ctLevel),
           (.add, min ptLevel ctLevel)]
        else
          [(.ntt, min ptLevel ctLevel), (.add, min ptLevel ctLevel),
           (.add, min ptLevel ctLevel)])
    else
      [(.invntt, min ptLevel ctLevel), (.invntt, min ptLevel ctLevel),
       (.gaussReadAndAdd, ctLevel), (.gaussReadAndAdd, ctLevel)] ++
        (if !ptNTT then
          [(.add, min ptLevel ctLevel)]
        else
          [(.invntt, min ptLevel ctLevel), (.add, min ptLevel ctLevel)]))

end rlwe

/- ### Claim C2 -/

/-- C2 counterexample: with a plaintext at level 0 and a destination
ciphertext at level 1 in the coefficient domain, the working level is
`min 0 1 = 0`, yet `skEncryptor.encrypt` performs its final Gaussian noise
addition (`ReadAndAddLvl`) at level 1, the ciphertext's entry level. The
claim that every ring operation is performed at the working level is
false. -/
theorem c2_counterexample :
    (rlwe.OpKind.gaussReadAndAdd, 1) ∈ rlwe.skEncryptTrace 0 1 true false ∧
      min 0 1 ≠ 1 := by
  decide

/-- C2 amended: in `skEncryptor.encrypt` and in `pkEncryptor.encryptNoP`,
every ring/sampler call is performed at the working level
`min ptLevel ctLevel`, except the Gaussian `ReadAndAddLvl` noise additions of
the coefficient-domain branches, which are performed at the destination
ciphertext's entry level `ctLevel`. -/
theorem c2_ops_at_working_level_except_noise (ptLevel ctLevel : Nat) (ptNTT ctNTT : Bool) :
    ((rlwe.skEncryptTrace ptLevel ctLevel ptNTT ctNTT ++
        rlwe.pkEncryptNoPTrace ptLevel ctLevel ptNTT ctNTT).all fun e =>
      e.2 == if e.1 == rlwe.OpKind.gaussReadAndAdd then ctLevel else min ptLevel ctLevel)
      = true := by
  cases ptNTT <;> cases ctNTT <;>
    simp [rlwe.skEncryptTrace, rlwe.pkEncryptNoPTrace, List.all_cons]

namespace rlwe

@[simp]
theorem length_writeRows (level : Int) (f : Nat → List Nat → List Nat) (p : PolyV) :
    (writeRows level f p).length = p.length := by
  simp [writeRows]

@[simp]
theorem length_AddLvl (R : RingModel) (level : Int) (a b out : PolyV) :
    (R.AddLvl level a b out).length = out.length := by
  simp [RingModel.AddLvl]

@[simp]
theorem length_NegLvl (R : RingModel) (level : Int) (a out : PolyV) :
    (R.NegLvl level a out).length = out.length := by
  simp [RingModel.NegLvl]

@[simp]
theorem length_NTTLvl (R : RingModel) (level : Int) (a out : PolyV) :
    (R.NTTLvl level a out).length = out.length := by
  simp [RingModel.NTTLvl]

@[simp]
theorem length_InvNTTLvl (R : RingModel) (level : Int) (a out : PolyV) :
    (R.InvNTTLvl level a out).length = out.length := by
  simp [RingModel.InvNTTLvl]

@[simp]
theorem length_MFormLvl (R : RingModel) (level : Int) (a out : PolyV) :
    (R.MFormLvl level a out).length = out.length := by
  simp [RingModel.MFormLvl]

@[simp]
theorem length_MulCoeffsMontgomeryLvl (R : RingModel) (level : Int) (a b out : PolyV) :
    (R.MulCoeffsMontgomeryLvl level a b out).length = out.length := by
  simp [RingModel.MulCoeffsMontgomeryLvl]

@[simp]
theorem length_ModDownQPtoQ (R : RingModel) (levelQ : Int) (aQ aP out : PolyV) :
    (R.ModDownQPtoQ levelQ aQ aP out).length = out.length := by
  simp [RingModel.ModDownQPtoQ]

@[simp]
theorem length_readLvl (level : Int) (smp out : PolyV) :
    (readLvl level smp out).length = out.length := by
  simp [readLvl]

@[simp]
theorem length_readAndAddLvl (qs : List Nat) (level : Int) (smp out : PolyV) :
    (readAndAddLvl qs level smp out).length = out.length := by
  simp [readAndAddLvl]

end rlwe


/- ### Claim C8 -/

/-- C8: every encryption entry point — the secret-key path and the public-key
path with or without the auxiliary modulus — exits with both ciphertext
components truncated to exactly `L + 1` residue rows, where
`L = min ptLevel ctLevel` is the working level computed from the entry
levels, and with both components carrying the same NTT-domain tag. -/
theorem c8_exit_level_and_tag (R RP : rlwe.RingModel)
    (sk pk0Q pk0P pk1Q pk1P : PolyV) (uniSmp uSmp e0Smp e1Smp eSmp : PolyV)
    (poolQ0 poolP0 poolP1 poolP2 : PolyV) (pt : rlwe.Plaintext) (ct : rlwe.Ciphertext)
    (hc0 : 1 ≤ ct.c0.Coeffs.length) (hc1 : ct.c1.Coeffs.length = ct.c0.Coeffs.length) :
    ((rlwe.skEncryptorEncrypt R sk uniSmp eSmp poolQ0 pt ct).c0.Coeffs.length
        = min pt.Level ct.Level + 1 ∧
      (rlwe.skEncryptorEncrypt R sk uniSmp eSmp poolQ0 pt ct).c1.Coeffs.length
        = min pt.Level ct.Level + 1 ∧
      (rlwe.skEncryptorEncrypt R sk uniSmp eSmp poolQ0 pt ct).c0.IsNTT
        = (rlwe.skEncryptorEncrypt R sk uniSmp eSmp poolQ0 pt ct).c1.IsNTT) ∧
    ((rlwe.pkEncryptorEncrypt true R RP pk0Q pk0P pk1Q pk1P uniSmp uSmp e0Smp e1Smp
          poolQ0 poolP0 poolP1 poolP2 pt ct).c0.Coeffs.length = min pt.Level ct.Level + 1 ∧
      (rlwe.pkEncryptorEncrypt true R RP pk0Q pk0P pk1Q pk1P uniSmp uSmp e0Smp e1Smp
          poolQ0 poolP0 poolP1 poolP2 pt ct).c1.Coeffs.length = min pt.Level ct.Level + 1 ∧
      (rlwe.pkEncryptorEncrypt true R RP pk0Q pk0P pk1Q pk1P uniSmp uSmp e0Smp e1Smp
          poolQ0 poolP0 poolP1 poolP2 pt ct).c0.IsNTT
        = (rlwe.pkEncryptorEncrypt true R RP pk0Q pk0P pk1Q pk1P uniSmp uSmp e0Smp e1Smp
          poolQ0 poolP0 poolP1 poolP2 pt ct).c1.IsNTT) ∧
    ((rlwe.pkEncryptorEncrypt false R RP pk0Q pk0P pk1Q pk1P uniSmp uSmp e0Smp e1Smp
          poolQ0 poolP0 poolP1 poolP2 pt ct).c0.Coeffs.length = min pt.Level ct.Level + 1 ∧
      (rlwe.pkEncryptorEncrypt false R RP pk0Q pk0P pk1Q pk1P uniSmp uSmp e0Smp e1Smp
          poolQ0 poolP0 poolP1 poolP2 pt ct).c1.Coeffs.length = min pt.Level ct.Level + 1 ∧
      (rlwe.pkEncryptorEncrypt false R RP pk0Q pk0P pk1Q pk1P uniSmp uSmp e0Smp e1Smp
          poolQ0 poolP0 poolP1 poolP2 pt ct).c0.IsNTT
        = (rlwe.pkEncryptorEncrypt false R RP pk0Q pk0P pk1Q pk1P uniSmp uSmp e0Smp e1Smp
          poolQ0 poolP0 poolP1 poolP2 pt ct).c1.IsNTT) := by
  refine ⟨?_, ?_, ?_⟩
  · unfold rlwe.skEncryptorEncrypt rlwe.skEncrypt
    cases hn : ct.c0.IsNTT <;> cases hp : pt.Value.IsNTT <;>
      simp_all [rlwe.Ciphertext.Level, rlwe.Poly.Level] <;> omega
  · unfold rlwe.pkEncryptorEncrypt rlwe.pkEncryptP
    cases hn : ct.c0.IsNTT <;> cases hp : pt.Value.IsNTT <;>
      simp_all [rlwe.Ciphertext.Level, rlwe.Poly.Level] <;> omega
  · unfold rlwe.pkEncryptorEncrypt rlwe.pkEncryptNoP
    cases hn : ct.c0.IsNTT <;> cases hp : pt.Value.IsNTT <;>
      simp_all [rlwe.Ciphertext.Level, rlwe.Poly.Level] <;> omega

/-- Witness for `c8_exit_level_and_tag` on a one-level, one-coefficient
ciphertext with an identity ring model. -/
theorem c8_exit_level_and_tag_witness :
    (1 ≤ (⟨⟨[[0]], false⟩, ⟨[[0]], false⟩⟩ : rlwe.Ciphertext).c0.Coeffs.length) ∧
      (rlwe.skEncryptorEncrypt
          ⟨[5], fun _ r => r, fun _ r => r, fun _ r => r, fun _ a _ => a,
            fun _ _ _ => [], fun _ _ => []⟩
          [[1]] [[2]] [[3]] [[4]] ⟨⟨[[0]], false⟩⟩
          ⟨⟨[[0]], false⟩, ⟨[[0]], false⟩⟩).c0.Coeffs.length
        = min (rlwe.Plaintext.Level ⟨⟨[[0]], false⟩⟩)
            (rlwe.Ciphertext.Level ⟨⟨[[0]], false⟩, ⟨[[0]], false⟩⟩) + 1 :=
  ⟨by decide,
    (c8_exit_level_and_tag
      ⟨[5], fun _ r => r, fun _ r => r, fun _ r => r, fun _ a _ => a,
        fun _ _ _ => [], fun _ _ => []⟩
      ⟨[5], fun _ r => r, fun _ r => r, fun _ r => r, fun _ a _ => a,
        fun _ _ _ => [], fun _ _ => []⟩
      [[1]] [[1]] [[1]] [[1]] [[1]] [[2]] [[2]] [[2]] [[2]] [[3]]
      [[4]] [[4]] [[4]] [[4]] ⟨⟨[[0]], false⟩⟩ ⟨⟨[[0]], false⟩, ⟨[[0]], false⟩⟩
      (by decide) (by decide)).1.1⟩

namespace rlwe

/-- `rlwe.PolyQP`: a polynomial over Q, optionally extended to the auxiliary
chain P (`P = none` models a nil P part). -/
structure PolyQP where
  Q : Poly
  P : Option Poly
deriving DecidableEq, Repr, Inhabited

/-- One grid cell of an RGSW ciphertext: `Value[i][j][r][c]` for
`r, c ∈ {0, 1}`, as the pair of rows, each a pair of `PolyQP`. -/
abbrev RGSWCell := (PolyQP × PolyQP) × (PolyQP × PolyQP)

/-- `rlwe.RGSWCiphertext`: the grid `Value[i][j]` of cells. -/
structure RGSWCiphertext where
  Value : List (List RGSWCell)
deriving DecidableEq, Repr, Inhabited

/-- The cell `Value[0][0]`, from which the source reads the levels and the
domain tag. -/
def RGSWCiphertext.cell00 (ct : RGSWCiphertext) : RGSWCell :=
  (ct.Value.getD 0 []).getD 0 default

/-- Modelled from the spec: `RGSWCiphertext.LevelQ()` reads the level of
`Value[0][0][0][0].Q`. -/
def RGSWCiphertext.LevelQ (ct : RGSWCiphertext) : Nat := ct.cell00.1.1.Q.Level

/-- Modelled from the spec: `RGSWCiphertext.LevelP()` reads the level of
`Value[0][0][0][0].P`, with the sentinel `-1` when the P part is nil. -/
def RGSWCiphertext.LevelP (ct : RGSWCiphertext) : Int :=
  match ct.cell00.1.1.P with
  | none => -1
  | some p => (p.Coeffs.length : Int) - 1

/-- The fresh samples consumed by one `encryptZeroSymetricQP` call: the
Gaussian sample of the NTT branch (`e1`), the uniform samples over Q and P
(`u`, `uP`), and the Gaussian sample of the coefficient-domain branch
(`e2`). -/
structure ZeroSample where
  e1 : PolyV
  u : PolyV
  uP : PolyV
  e2 : PolyV
deriving Repr, Inhabited

/-- `encryptor.encryptZeroSymetricQP` (source lines 492-532): one symmetric
RLWE encryption of zero over Q∪P into the destination pair `(a, b)`. The
P-side operations apply only where a P part is present, as the `ringqp`
collaborator does on nil P parts; `poolQ0`/`poolP0` are the scratch buffers
backing the second error term `e` of the coefficient-domain branch. -/
def encryptZeroSymetricQP (R RP : RingModel) (levelQ : Int) (levelP : Int)
    (skQ : PolyV) (skP : Option PolyV) (sample ntt : Bool) (zs : ZeroSample)
    (poolQ0 poolP0 : PolyV) (a b : PolyQP) : PolyQP × PolyQP :=
  let hasModulusP := a.P.isSome && b.P.isSome
  let a : PolyQP :=
    if ntt then
      let aQ := readLvl levelQ zs.e1 a.Q.Coeffs
      let aP :=
        if hasModulusP then
          a.P.map fun p => { p with Coeffs := RP.extendBasis levelP aQ p.Coeffs }
        else a.P
      let aQ := R.NTTLvl levelQ aQ aQ
      let aP := aP.map fun p => { p with Coeffs := RP.NTTLvl levelP p.Coeffs p.Coeffs }
      { Q := { a.Q with Coeffs := aQ }, P := aP }
    else a
  let b : PolyQP :=
    if sample then
      let bQ := readLvl levelQ zs.u b.Q.Coeffs
      let bP :=
        if hasModulusP then
          b.P.map fun p => { p with Coeffs := readLvl levelP zs.uP p.Coeffs }
        else b.P
      { Q := { b.Q with Coeffs := bQ }, P := bP }
    else b
  let a : PolyQP :=
    { Q := { a.Q with
        Coeffs := R.MulCoeffsMontgomeryAndSubLvl levelQ b.Q.Coeffs skQ a.Q.Coeffs },
      P :=
        match a.P, b.P, skP with
        | some ap, some bp, some skp =>
          some { ap with
            Coeffs := RP.MulCoeffsMontgomeryAndSubLvl levelP bp.Coeffs skp ap.Coeffs }
        | ap, _, _ => ap }
  if ntt then (a, b)
  else
    let a : PolyQP :=
      { a with Q := { a.Q with Coeffs := R.InvNTTLvl levelQ a.Q.Coeffs a.Q.Coeffs } }
    let a : PolyQP :=
      { a with P := a.P.map fun p =>
          { p with Coeffs := RP.InvNTTLvl levelP p.Coeffs p.Coeffs } }
    let b : PolyQP :=
      { b with Q := { b.Q with Coeffs := R.InvNTTLvl levelQ b.Q.Coeffs b.Q.Coeffs } }
    let b : PolyQP :=
      { b with P := b.P.map fun p =>
          { p with Coeffs := RP.InvNTTLvl levelP p.Coeffs p.Coeffs } }
    let eQ := readLvl levelQ zs.e2 poolQ0
    let eP :=
      if hasModulusP then some (RP.extendBasis levelP eQ poolP0) else none
    let a : PolyQP :=
      { a with Q := { a.Q with Coeffs := R.AddLvl levelQ a.Q.Coeffs eQ a.Q.Coeffs } }
    let a : PolyQP :=
      { a with P :=
          match a.P, eP with
          | some ap, some ep =>
            some { ap with Coeffs := RP.AddLvl levelP ap.Coeffs ep ap.Coeffs }
          | ap, _ => ap }
    (a, b)

/-- `ring.CRed(a, q)`: conditional reduction of `a < 2q` into `[0, q)`.
Modelled from the spec's residue-wise modular addition: for reduced inputs
`CRed(x + y, q) = (x + y) % q`. -/
def cred (a q : Nat) : Nat := if q ≤ a then a - q else a

/-- One row of the plaintext-addition step of `EncryptRGSW` (source lines
475-478): add the pre-scaled plaintext row into a grid-cell row with
conditional reduction. -/
def credAddRow (q : Nat) (ptRow row : List Nat) : List Nat :=
  List.zipWith (fun p0 p1 => cred (p1 + p0) q) ptRow row

/-- The inner plaintext-addition loop of `skEncryptor.EncryptRGSW` (source
lines 461-479) for grid position `i`: starting from digit offset `k` with
`cnt` iterations left, add the pre-scaled plaintext rows of `pt` into the
rows `index = i*(levelP+1) + k` of the two cell polynomials `p1` (the Q part
of `Value[i][j][0][0]`) and `p2` (the Q part of `Value[i][j][1][1]`),
breaking silently at the first `index ≥ levelQ + 1`. -/
def rgswAddPtLoop (qs : List Nat) (levelQ levelP i : Nat) (pt : PolyV)
    (k cnt : Nat) (p1 p2 : PolyV) : PolyV × PolyV :=
  match cnt with
  | 0 => (p1, p2)
  | cnt + 1 =>
    let index := i * (levelP + 1) + k
    if levelQ + 1 ≤ index then (p1, p2)
    else
      rgswAddPtLoop qs levelQ levelP i pt (k + 1) cnt
        (p1.set index (credAddRow (qs.getD index 0) (pt.getD index []) (p1.getD index [])))
        (p2.set index (credAddRow (qs.getD index 0) (pt.getD index []) (p2.getD index [])))

/-- The inner plaintext-addition loop of `skEncryptor.EncryptRGSW` as executed
(`for k := 0; k < levelP+1; k++`). -/
def rgswAddPt (qs : List Nat) (levelQ levelP i : Nat) (pt : PolyV) (p1 p2 : PolyV) :
    PolyV × PolyV :=
  rgswAddPtLoop qs levelQ levelP i pt 0 (levelP + 1) p1 p2

/-- `ringQP.MFormLvl` applied to one `PolyQP`, as used on the four cell
entries at the end of each `EncryptRGSW` grid step. -/
def mformQP (R RP : RingModel) (levelQ levelP : Int) (x : PolyQP) : PolyQP :=
  { Q := { x.Q with Coeffs := R.MFormLvl levelQ x.Q.Coeffs x.Q.Coeffs },
    P := x.P.map fun p => { p with Coeffs := RP.MFormLvl levelP p.Coeffs p.Coeffs } }

/-- `skEncryptor.EncryptRGSW` (source lines 411-490). The external parameter
helpers are passed in: `PCount` (`params.PCount()`), `logBase2`
(`params.LogBase2()`), and the decomposition counts `decompRNS`/`decompBIT`
(`params.DecompRNS`/`DecompBIT` at the ciphertext's level pair). `zsS i j r`
supplies the fresh samples of the two `encryptZeroSymetricQP` calls
(`r ∈ {0, 1}`) at grid position `(i, j)`; `poolQ0`, `ptTimesPBuf`
(`enc.poolQ[1]`) and `poolP0` are the scratch buffers. When the plaintext is
non-nil and `levelP = -1`, the source resets `levelP` to 0 for the rest of
the computation, exactly as modelled here. -/
def skEncryptRGSW (R RP : RingModel) (PCount logBase2 decompRNS decompBIT : Nat)
    (skQ : PolyV) (skP : Option PolyV) (zsS : Nat → Nat → Nat → ZeroSample)
    (poolQ0 ptTimesPBuf poolP0 : PolyV) (plaintext : Option Plaintext)
    (ct : RGSWCiphertext) : RGSWCiphertext :=
  let isNTT := ct.cell00.1.1.Q.IsNTT
  let levelQ := ct.LevelQ
  let levelP0 := ct.LevelP
  let pre :=
    match plaintext with
    | some pt =>
      if levelP0 ≠ -1 then
        -- Source lines 425-433: the full P product when every P modulus is
        -- active, the partial product `P[0] * ... * P[levelP]` otherwise.
        let pBigInt :=
          if levelP0 = (PCount : Int) - 1 then RP.Modulus.prod
          else (RP.Modulus.take (levelP0.toNat + 1)).prod
        let v := R.MulScalarBigintLvl (levelQ : Int) pt.Value.Coeffs pBigInt ptTimesPBuf
        let v := if !pt.Value.IsNTT then R.NTTLvl (levelQ : Int) v v else v
        (v, levelP0)
      else
        let v :=
          if !pt.Value.IsNTT then R.NTTLvl (levelQ : Int) pt.Value.Coeffs ptTimesPBuf
          else copyLvl (levelQ : Int) pt.Value.Coeffs ptTimesPBuf
        (v, 0)
    | none => (ptTimesPBuf, levelP0)
  let levelP := pre.2
  let step := fun (st : List (List RGSWCell) × PolyV) (j : Nat) =>
    let grid := (List.range decompRNS).foldl
      (fun g i =>
        let cell := (g.getD i []).getD j default
        let r0 := encryptZeroSymetricQP R RP (levelQ : Int) levelP skQ skP true isNTT
          (zsS i j 0) poolQ0 poolP0 cell.1.1 cell.1.2
        let r1 := encryptZeroSymetricQP R RP (levelQ : Int) levelP skQ skP true isNTT
          (zsS i j 1) poolQ0 poolP0 cell.2.1 cell.2.2
        let withPt :=
          match plaintext with
          | some _ =>
            let pr := rgswAddPt R.Modulus levelQ levelP.toNat i st.2
              r0.1.Q.Coeffs r1.2.Q.Coeffs
            (({ r0.1 with Q := { r0.1.Q with Coeffs := pr.1 } }, r0.2),
              (r1.1, { r1.2 with Q := { r1.2.Q with Coeffs := pr.2 } }))
          | none => (r0, r1)
        let cell1 : RGSWCell :=
          ((mformQP R RP (levelQ : Int) levelP withPt.1.1,
            mformQP R RP (levelQ : Int) levelP withPt.1.2),
           (mformQP R RP (levelQ : Int) levelP withPt.2.1,
            mformQP R RP (levelQ : Int) levelP withPt.2.2))
        g.set i ((g.getD i []).set j cell1))
      st.1
    (grid, R.MulScalar st.2 (2 ^ logBase2) st.2)
  { Value := ((List.range decompBIT).foldl step (ct.Value, pre.1)).1 }

end rlwe

/- ### Claim C4 -/

/-- Which rows the plaintext-addition loop touches, for an arbitrary starting
offset `k` and remaining iteration count `cnt`: exactly the rows
`index = i*(levelP+1) + k'` with `k ≤ k' < k + cnt` that also satisfy
`index ≤ levelQ`; the silent break at the first `index ≥ levelQ + 1` drops
all later offsets because `index` grows with `k'`. -/
theorem rgswAddPtLoop_getD (qs : List Nat) (levelQ levelP i : Nat) (pt : PolyV)
    (r : Nat) :
    ∀ (cnt k : Nat) (p1 p2 : PolyV),
      ((rlwe.rgswAddPtLoop qs levelQ levelP i pt k cnt p1 p2).1.getD r [] =
        if i * (levelP + 1) + k ≤ r ∧ r < i * (levelP + 1) + k + cnt ∧ r ≤ levelQ
        then rlwe.credAddRow (qs.getD r 0) (pt.getD r []) (p1.getD r [])
        else p1.getD r []) ∧
      ((rlwe.rgswAddPtLoop qs levelQ levelP i pt k cnt p1 p2).2.getD r [] =
        if i * (levelP + 1) + k ≤ r ∧ r < i * (levelP + 1) + k + cnt ∧ r ≤ levelQ
        then rlwe.credAddRow (qs.getD r 0) (pt.getD r []) (p2.getD r [])
        else p2.getD r []) := by
  intro cnt
  induction cnt with
  | zero =>
    intro k p1 p2
    constructor <;> · rw [rlwe.rgswAddPtLoop, if_neg (by omega)]
  | succ c ih =>
    intro k p1 p2
    rw [rlwe.rgswAddPtLoop]
    by_cases hbr : levelQ + 1 ≤ i * (levelP + 1) + k
    · rw [if_pos hbr]
      constructor <;> rw [if_neg (by omega)]
    · rw [if_neg hbr]
      obtain ⟨ih1, ih2⟩ := ih (k + 1)
        (p1.set (i * (levelP + 1) + k)
          (rlwe.credAddRow (qs.getD (i * (levelP + 1) + k) 0)
            (pt.getD (i * (levelP + 1) + k) []) (p1.getD (i * (levelP + 1) + k) [])))
        (p2.set (i * (levelP + 1) + k)
          (rlwe.credAddRow (qs.getD (i * (levelP + 1) + k) 0)
            (pt.getD (i * (levelP + 1) + k) []) (p2.getD (i * (levelP + 1) + k) [])))
      constructor
      · rw [ih1]
        by_cases hr : r = i * (levelP + 1) + k
        · subst hr
          rw [if_neg (by omega), if_pos (by omega), getD_set_self]
          by_cases hlen : i * (levelP + 1) + k < p1.length
          · rw [if_pos hlen]
          · rw [if_neg hlen, List.getD_eq_default p1 [] (by omega)]
            simp [rlwe.credAddRow]
        · rw [getD_set_ne _ _ _ hr]
          by_cases hc : i * (levelP + 1) + k ≤ r ∧ r < i * (levelP + 1) + k + (c + 1) ∧
              r ≤ levelQ
          · rw [if_pos (by omega), if_pos hc]
          · rw [if_neg (by omega), if_neg hc]
      · rw [ih2]
        by_cases hr : r = i * (levelP + 1) + k
        · subst hr
          rw [if_neg (by omega), if_pos (by omega), getD_set_self]
          by_cases hlen : i * (levelP + 1) + k < p2.length
          · rw [if_pos hlen]
          · rw [if_neg hlen, List.getD_eq_default p2 [] (by omega)]
            simp [rlwe.credAddRow]
        · rw [getD_set_ne _ _ _ hr]
          by_cases hc : i * (levelP + 1) + k ≤ r ∧ r < i * (levelP + 1) + k + (c + 1) ∧
              r ≤ levelQ
          · rw [if_pos (by omega), if_pos hc]
          · rw [if_neg (by omega), if_neg hc]

/-- C4: in the plaintext-addition step of `EncryptRGSW` at grid position
`(i, j)`, the pre-scaled plaintext rows are added (with conditional modular
reduction) into both destination polynomials exactly at the RNS indices
`r = i*(levelP+1) + k` for `k ∈ [0, levelP]` that satisfy `r ≤ levelQ`; the
loop breaks silently (no error — the function is total) at the first index
reaching `levelQ + 1`, leaving every row at a larger index without a
plaintext contribution. -/
theorem c4_rgsw_plaintext_rows (qs : List Nat) (levelQ levelP i : Nat) (pt : PolyV)
    (p1 p2 : PolyV) (r : Nat) :
    ((rlwe.rgswAddPt qs levelQ levelP i pt p1 p2).1.getD r [] =
      if i * (levelP + 1) ≤ r ∧ r ≤ i * (levelP + 1) + levelP ∧ r ≤ levelQ
      then rlwe.credAddRow (qs.getD r 0) (pt.getD r []) (p1.getD r [])
      else p1.getD r []) ∧
    ((rlwe.rgswAddPt qs levelQ levelP i pt p1 p2).2.getD r [] =
      if i * (levelP + 1) ≤ r ∧ r ≤ i * (levelP + 1) + levelP ∧ r ≤ levelQ
      then rlwe.credAddRow (qs.getD r 0) (pt.getD r []) (p2.getD r [])
      else p2.getD r []) := by
  obtain ⟨h1, h2⟩ := rgswAddPtLoop_getD qs levelQ levelP i pt r (levelP + 1) 0 p1 p2
  unfold rlwe.rgswAddPt
  constructor
  · rw [h1]
    by_cases hc : i * (levelP + 1) ≤ r ∧ r ≤ i * (levelP + 1) + levelP ∧ r ≤ levelQ
    · rw [if_pos (by omega), if_pos hc]
    · rw [if_neg (by omega), if_neg hc]
  · rw [h2]
    by_cases hc : i * (levelP + 1) ≤ r ∧ r ≤ i * (levelP + 1) + levelP ∧ r ≤ levelQ
    · rw [if_pos (by omega), if_pos hc]
    · rw [if_neg (by omega), if_neg hc]

namespace rlwe

/-- `pkEncryptor.EncryptFromCRP` (source lines 129-132): unconditional panic,
modelled as an error result carrying the panic message; no ciphertext state
is produced, so nothing is written into the destination. -/
def pkEncryptorEncryptFromCRP (pt : Plaintext) (crp : PolyV) (ct : Ciphertext) :
    Except String Ciphertext :=
  Except.error "Cannot encrypt with CRP using a public-key"

/-- `pkEncryptor.EncryptRGSW` (source lines 406-409): unconditional panic,
modelled as an error result carrying the panic message; no grid state is
produced, so nothing is written into the destination. -/
def pkEncryptorEncryptRGSW (pt : Option Plaintext) (ct : RGSWCiphertext) :
    Except String RGSWCiphertext :=
  Except.error "method not implemented"

/-- `skEncryptor.EncryptFromCRP` as an entry point: the secret-key path has no
panic statement and completes normally, returning the updated ciphertext. -/
def skEncryptorEncryptFromCRP (R : RingModel) (sk : PolyV) (eSmp pool : PolyV)
    (crp : PolyV) (pt : Plaintext) (ct : Ciphertext) : Except String Ciphertext :=
  Except.ok (skEncryptFromCRP R sk eSmp pool crp pt ct)

/-- `skEncryptor.EncryptRGSW` as an entry point: the secret-key path has no
panic statement and completes normally, returning the updated grid. -/
def skEncryptorEncryptRGSW (R RP : RingModel) (PCount logBase2 decompRNS decompBIT : Nat)
    (skQ : PolyV) (skP : Option PolyV) (zsS : Nat → Nat → Nat → ZeroSample)
    (poolQ0 ptTimesPBuf poolP0 : PolyV) (plaintext : Option Plaintext)
    (ct : RGSWCiphertext) : Except String RGSWCiphertext :=
  Except.ok (skEncryptRGSW R RP PCount logBase2 decompRNS decompBIT skQ skP zsS
    poolQ0 ptTimesPBuf poolP0 plaintext ct)

end rlwe

/- ### Claim C9 -/

/-- C9: for every plaintext, CRP polynomial and ciphertext argument, invoking
`EncryptFromCRP` or `EncryptRGSW` on a public-key-bound encryptor is a fatal
precondition violation — the call panics with the source's message and
produces no ciphertext state (nothing is written into the destination) —
while the same entry points on a secret-key-bound encryptor complete normally
with a result. -/
theorem c9_pk_entry_points_panic (R RP : rlwe.RingModel)
    (sk skQ : PolyV) (skP : Option PolyV) (eSmp pool crp : PolyV)
    (PCount logBase2 decompRNS decompBIT : Nat)
    (zsS : Nat → Nat → Nat → rlwe.ZeroSample) (poolQ0 ptTimesPBuf poolP0 : PolyV)
    (pt : rlwe.Plaintext) (ptOpt : Option rlwe.Plaintext)
    (ct : rlwe.Ciphertext) (rgsw : rlwe.RGSWCiphertext) :
    rlwe.pkEncryptorEncryptFromCRP pt crp ct
        = Except.error "Cannot encrypt with CRP using a public-key" ∧
      rlwe.pkEncryptorEncryptRGSW ptOpt rgsw = Except.error "method not implemented" ∧
      (∀ out, rlwe.pkEncryptorEncryptFromCRP pt crp ct ≠ Except.ok out) ∧
      (∀ out, rlwe.pkEncryptorEncryptRGSW ptOpt rgsw ≠ Except.ok out) ∧
      (rlwe.skEncryptorEncryptFromCRP R sk eSmp pool crp pt ct).isOk = true ∧
      (rlwe.skEncryptorEncryptRGSW R RP PCount logBase2 decompRNS decompBIT skQ skP zsS
          poolQ0 ptTimesPBuf poolP0 ptOpt rgsw).isOk = true := by
  refine ⟨rfl, rfl, ?_, ?_, rfl, rfl⟩
  · intro out h
    exact Except.noConfusion h
  · intro out h
    exact Except.noConfusion h

/- ### Multikey BFV decryptor component (source file `mkbfv/decryptor.go`) -/

namespace mkbfv

/-- Modelled from the spec: `ring.Ring.MulCoeffsAndAdd(a, b, out)` of the ring
collaborator — residue-wise multiply-and-accumulate `out + a*b` over the full
modulus chain `qs`. -/
def mulCoeffsAndAdd (qs : List Nat) (a b out : PolyV) : PolyV :=
  (List.range qs.length).map fun i =>
    List.zipWith (fun xy z => (z + xy.1 * xy.2) % qs.getD i 0)
      (List.zipWith Prod.mk (a.getD i []) (b.getD i [])) (out.getD i [])

/-- Modelled from the spec: `ring.Ring.Add(a, b, out)` — residue-wise modular
addition over the full modulus chain `qs`. -/
def ringAdd (qs : List Nat) (a b : PolyV) : PolyV :=
  (List.range qs.length).map fun i =>
    List.zipWith (fun x y => (x + y) % qs.getD i 0) (a.getD i []) (b.getD i [])

/-- Modelled from the spec: `ring.Ring.NewPoly()` — a zero polynomial over the
full modulus chain with `n` coefficients per row. -/
def newPoly (qs : List Nat) (n : Nat) : PolyV :=
  (List.range qs.length).map fun _ => List.replicate n 0

/-- `mkDecryptor.PartDec(ct, sk, out)` (source lines 43-51), over the explicit
store: the Go statement `out = dec.samplerGaussian.ReadNew()` rebinds the
LOCAL pointer variable `out` to a freshly allocated polynomial holding the
Gaussian sample `noise` (the caller's pointer is unaffected, since Go passes
the pointer by value), and `MulCoeffsAndAdd(ct, sk.key.Value, out)` then
accumulates `ct·sk` into that fresh polynomial. The function returns the
final store; the polynomial at the caller's address `out` is never written. -/
def PartDec (qs : List Nat) (st : Store) (noise : PolyV) (ct sk out : Nat) : Store :=
  let st1 := st ++ [noise]
  let outLocal := st.length
  st1.set outLocal
    (mulCoeffsAndAdd qs (st1.getD ct []) (st1.getD sk []) (st1.getD outLocal []))

/-- `mkDecryptor.MergeDec(c0, partialKeys)` (source lines 54-69), over the
explicit store: allocate a fresh polynomial `res`, copy `c0` into it
(`ringQ.Copy`), fold `ringQ.Add(res, k, res)` over the shares, and return the
final store together with the address of `res`, which backs the returned
plaintext (`plaintext.SetValue([]*ring.Poly{res})`). -/
def MergeDec (qs : List Nat) (n : Nat) (st : Store) (c0 : Nat) (partialKeys : List Nat) :
    Store × Nat :=
  let res := st.length
  let st1 := st ++ [newPoly qs n]
  let st2 := st1.set res (st1.getD c0 [])
  let st3 := partialKeys.foldl
    (fun s k => s.set res (ringAdd qs (s.getD res []) (s.getD k []))) st2
  (st3, res)

end mkbfv

/- ### Claim C1 -/

/-- C1: the claim says the decryption share `ct·sk + noise` is observable by
the caller through `out` after `PartDec` returns. On the concrete store
`[ct ↦ [[1]], sk ↦ [[1]], out ↦ [[0]]]` over `Q = [5]` with Gaussian sample
`[[1]]`, the share is `[[2]]`, yet after the call the polynomial at the
caller's address `out` still holds `[[0]]`: the share was computed into a
fresh local allocation (the rebound local `out`) that the caller can never
reach, because `out = dec.samplerGaussian.ReadNew()` overwrote the local
pointer instead of the pointed-to polynomial. -/
theorem c1_partdec_share_unobservable :
    (mkbfv.PartDec [5] [[[1]], [[1]], [[0]]] [[1]] 0 1 2).getD 2 [] = [[0]] ∧
      mkbfv.mulCoeffsAndAdd [5] [[1]] [[1]] [[1]] = [[2]] ∧
      (mkbfv.PartDec [5] [[[1]], [[1]], [[0]]] [[1]] 0 1 2).getD 2 []
        ≠ mkbfv.mulCoeffsAndAdd [5] [[1]] [[1]] [[1]] := by
  decide

/- ### Claim C10 -/

/-- C10: `MergeDec` never mutates its inputs: every polynomial stored at an
address that existed before the call — in particular `c0` and every entry of
`partialKeys` — holds the same value afterwards, and the returned plaintext
is backed by a freshly allocated polynomial (the address `st.length`, beyond
every pre-existing address). -/
theorem c10_mergedec_no_mutation (qs : List Nat) (n : Nat) (st : Store) (c0 : Nat)
    (partialKeys : List Nat) (a : Nat) (ha : a < st.length) :
    (mkbfv.MergeDec qs n st c0 partialKeys).1.getD a [] = st.getD a [] ∧
      (mkbfv.MergeDec qs n st c0 partialKeys).2 = st.length := by
  unfold mkbfv.MergeDec
  refine ⟨?_, rfl⟩
  have key : ∀ (ks : List Nat) (s : Store),
      s.getD a [] = st.getD a [] →
      (ks.foldl (fun s k => s.set st.length (mkbfv.ringAdd qs (s.getD st.length [])
        (s.getD k []))) s).getD a [] = st.getD a [] := by
    intro ks
    induction ks with
    | nil => intro s hs; exact hs
    | cons k ks ih =>
      intro s hs
      exact ih _ (by rw [getD_set_ne _ _ _ (by omega)]; exact hs)
  exact key partialKeys _ (by
    rw [getD_set_ne _ _ _ (by omega), getD_append_left _ _ _ _ ha])

/-- Witness for `c10_mergedec_no_mutation` on a two-polynomial store. -/
theorem c10_mergedec_no_mutation_witness :
    (0 < ([[[1]], [[2]]] : Store).length) ∧
      (mkbfv.MergeDec [5] 1 [[[1]], [[2]]] 0 [1, 1]).1.getD 0 [] = [[1]] :=
  ⟨by decide, (c10_mergedec_no_mutation [5] 1 [[[1]], [[2]]] 0 [1, 1] 0 (by decide)).1⟩

/- ### Claim C5 -/

theorem getD_map_range {β : Type} (m : Nat) (f : Nat → β) (i : Nat) (d : β) :
    ((List.range m).map f).getD i d = if i < m then f i else d := by
  rw [List.getD_eq_getElem?_getD, List.getElem?_map]
  by_cases h : i < m
  · rw [List.getElem?_range h]
    simp [h]
  · rw [List.getElem?_eq_none (by simpa using Nat.le_of_not_lt h)]
    simp [h]

theorem getD_mem_of_lt {α : Type} (l : List α) (i : Nat) (d : α) (h : i < l.length) :
    l.getD i d ∈ l := by
  rw [List.getD_eq_getElem l d h]
  exact List.getElem_mem h

namespace mkbfv

/-- A polynomial well-formed over the modulus chain `qs` with `n` coefficients
per row: one row per modulus, each row of length `n`, every residue reduced
below its modulus. -/
abbrev WFPoly (qs : List Nat) (n : Nat) (p : PolyV) : Prop :=
  p.length = qs.length ∧
    ∀ i, i < qs.length →
      (p.getD i []).length = n ∧ ∀ x ∈ p.getD i [], x < qs.getD i 0

theorem ringAdd_getD (qs : List Nat) (a b : PolyV) (i : Nat) (hi : i < qs.length) :
    (ringAdd qs a b).getD i []
      = List.zipWith (fun x y => (x + y) % qs.getD i 0) (a.getD i []) (b.getD i []) := by
  unfold ringAdd
  rw [getD_map_range, if_pos hi]

theorem ringAdd_WF (qs : List Nat) (n : Nat) (hq : ∀ q ∈ qs, 0 < q) (a b : PolyV)
    (ha : WFPoly qs n a) (hb : WFPoly qs n b) : WFPoly qs n (ringAdd qs a b) := by
  obtain ⟨ha1, ha2⟩ := ha
  obtain ⟨hb1, hb2⟩ := hb
  refine ⟨by simp [ringAdd], ?_⟩
  intro i hi
  rw [ringAdd_getD qs a b i hi]
  obtain ⟨hal, -⟩ := ha2 i hi
  obtain ⟨hbl, -⟩ := hb2 i hi
  constructor
  · rw [List.length_zipWith, hal, hbl]
    exact Nat.min_self n
  · intro x hx
    obtain ⟨j, hj, rfl⟩ := List.mem_iff_getElem.mp hx
    rw [List.getElem_zipWith]
    exact Nat.mod_lt _ (hq _ (getD_mem_of_lt qs i 0 hi))

theorem getD_getD_lt {p : PolyV} {qs : List Nat} {n i w : Nat}
    (hp : WFPoly qs n p) (hi : i < qs.length) (hw : w < n) :
    (p.getD i []).getD w 0 < qs.getD i 0 := by
  obtain ⟨-, h2⟩ := hp
  obtain ⟨hl, hred⟩ := h2 i hi
  exact hred _ (getD_mem_of_lt _ w 0 (by omega))

theorem foldl_ringAdd_getD (qs : List Nat) (n : Nat) (hq : ∀ q ∈ qs, 0 < q) :
    ∀ (vs : List PolyV) (acc : PolyV), WFPoly qs n acc → (∀ v ∈ vs, WFPoly qs n v) →
      ∀ i, i < qs.length → ∀ w, w < n →
        ((vs.foldl (ringAdd qs) acc).getD i []).getD w 0
          = ((acc.getD i []).getD w 0 +
              (vs.map (fun v => (v.getD i []).getD w 0)).sum) % qs.getD i 0 := by
  intro vs
  induction vs with
  | nil =>
    intro acc hacc _ i hi w hw
    simp only [List.foldl_nil, List.map_nil, List.sum_nil, Nat.add_zero]
    exact (Nat.mod_eq_of_lt (getD_getD_lt hacc hi hw)).symm
  | cons v vs ih =>
    intro acc hacc hvs i hi w hw
    have hv : WFPoly qs n v := hvs v (List.mem_cons_self _ _)
    have hrest : ∀ u ∈ vs, WFPoly qs n u := fun u hu => hvs u (List.mem_cons_of_mem _ hu)
    rw [List.foldl_cons,
      ih (ringAdd qs acc v) (ringAdd_WF qs n hq acc v hacc hv) hrest i hi w hw]
    have hla : w < (acc.getD i []).length := by rw [(hacc.2 i hi).1]; omega
    have hlv : w < (v.getD i []).length := by rw [(hv.2 i hi).1]; omega
    have hz : ((ringAdd qs acc v).getD i []).getD w 0
        = ((acc.getD i []).getD w 0 + (v.getD i []).getD w 0) % qs.getD i 0 := by
      rw [ringAdd_getD qs acc v i hi,
        List.getD_eq_getElem _ _ (by rw [List.length_zipWith]; omega),
        List.getElem_zipWith,
        List.getD_eq_getElem (acc.getD i []) 0 hla,
        List.getD_eq_getElem (v.getD i []) 0 hlv]
    rw [hz, List.map_cons, List.sum_cons, Nat.mod_add_mod, Nat.add_assoc]

/-- The store produced by `MergeDec`: the original store extended with one
fresh polynomial holding `c0` with all shares folded in. -/
theorem mergeDec_store (qs : List Nat) (n : Nat) (st : Store) (c0 : Nat)
    (ks : List Nat) (hc0 : c0 < st.length) (hks : ∀ k ∈ ks, k < st.length) :
    (MergeDec qs n st c0 ks).1
      = st ++ [ks.foldl (fun acc k => ringAdd qs acc (st.getD k [])) (st.getD c0 [])] := by
  simp only [MergeDec]
  have h2 : (st ++ [newPoly qs n]).set st.length
      ((st ++ [newPoly qs n]).getD c0 []) = st ++ [st.getD c0 []] := by
    rw [getD_append_left _ _ _ _ hc0, set_append_len]
  rw [h2]
  have key : ∀ (ks : List Nat) (acc : PolyV), (∀ k ∈ ks, k < st.length) →
      (ks.foldl (fun s k => s.set st.length
          (ringAdd qs (s.getD st.length []) (s.getD k []))) (st ++ [acc]))
        = st ++ [ks.foldl (fun acc k => ringAdd qs acc (st.getD k [])) acc] := by
    intro ks
    induction ks with
    | nil => intro acc _; rfl
    | cons k ks ih =>
      intro acc hk
      rw [List.foldl_cons, getD_append_len, getD_append_left _ _ _ _
        (hk k (List.mem_cons_self _ _)), set_append_len, List.foldl_cons]
      exact ih _ (fun u hu => hk u (List.mem_cons_of_mem _ hu))
  exact key ks _ hks

/-- The returned plaintext address of `MergeDec` is the fresh address
`st.length`. -/
theorem mergeDec_addr (qs : List Nat) (n : Nat) (st : Store) (c0 : Nat)
    (ks : List Nat) : (MergeDec qs n st c0 ks).2 = st.length := rfl

end mkbfv

/-- C5: for every ciphertext component `c0` and every finite list of share
addresses (of any length, including the empty list and lists with
duplicates), the polynomial backing the plaintext returned by `MergeDec`
equals `c0 + Σ shares`, computed residue-wise modulo the chain `Q`, and the
call is a total function — it completes without any error or quorum check
regardless of how many shares are supplied. -/
theorem c5_mergedec_sum (qs : List Nat) (n : Nat) (st : Store) (c0 : Nat)
    (ks : List Nat) (hq : ∀ q ∈ qs, 0 < q) (hc0 : c0 < st.length)
    (hwc0 : mkbfv.WFPoly qs n (st.getD c0 []))
    (hks : ∀ k ∈ ks, k < st.length ∧ mkbfv.WFPoly qs n (st.getD k []))
    (i : Nat) (hi : i < qs.length) (w : Nat) (hw : w < n) :
    (((mkbfv.MergeDec qs n st c0 ks).1.getD (mkbfv.MergeDec qs n st c0 ks).2 []).getD
        i []).getD w 0
      = (((st.getD c0 []).getD i []).getD w 0 +
          (ks.map (fun k => ((st.getD k []).getD i []).getD w 0)).sum) % qs.getD i 0 := by
  rw [mkbfv.mergeDec_addr, mkbfv.mergeDec_store qs n st c0 ks hc0 (fun k hk => (hks k hk).1),
    getD_append_len]
  have hfold : ks.foldl (fun acc k => mkbfv.ringAdd qs acc (st.getD k [])) (st.getD c0 [])
      = (ks.map (fun k => st.getD k [])).foldl (mkbfv.ringAdd qs) (st.getD c0 []) := by
    rw [List.foldl_map]
  rw [hfold, mkbfv.foldl_ringAdd_getD qs n hq _ _ hwc0
    (by intro v hv; obtain ⟨k, hk, rfl⟩ := List.mem_map.mp hv; exact (hks k hk).2) i hi w hw]
  rw [List.map_map]
  rfl

/-- Witness for `c5_mergedec_sum`: over `Q = [5]` with one coefficient,
merging `c0 = [[3]]` with the duplicate share list at addresses `[1, 1]`
(share value `[[4]]` twice) yields `(3 + 4 + 4) % 5`. -/
theorem c5_mergedec_sum_witness :
    (∀ q ∈ ([5] : List Nat), 0 < q) ∧
      (((mkbfv.MergeDec [5] 1 [[[3]], [[4]]] 0 [1, 1]).1.getD
          (mkbfv.MergeDec [5] 1 [[[3]], [[4]]] 0 [1, 1]).2 []).getD 0 []).getD 0 0
        = (((([[[3]], [[4]]] : Store).getD 0 []).getD 0 []).getD 0 0 +
            (([1, 1] : List Nat).map
              (fun k => ((([[[3]], [[4]]] : Store).getD k []).getD 0 []).getD 0 0)).sum) % 5 :=
  ⟨by decide,
    c5_mergedec_sum [5] 1 [[[3]], [[4]]] 0 [1, 1] (by decide) (by decide) (by decide)
      (by decide) 0 (by decide) 0 (by decide)⟩
